import Mathlib

/-!
Verification of the exifRenamer core: the timestamp resolver and the
collision-resolving renamer, shallowly embedded from `src/exifRenamer.py`.

Modelling conventions:
* A capture instant (Python `datetime`) is an `Int` counting microseconds on
  the naive local timeline.  Python `datetime` equality, ordering and
  `timedelta` addition coincide with `Int` equality, ordering and addition
  under this embedding, and `datetime` carries microsecond precision
  (`datetime.fromtimestamp(st_mtime)` produces sub-second values), hence the
  microsecond unit.  `timedelta(seconds=1)` is `oneSecond = 1000000`.
  The `Int` timeline is unbounded while `datetime` is bounded at year 9999;
  the `_checked` variants of the planner model the bounded advance (the
  `OverflowError` past `datetime.max`), and the two models are proved to
  agree on every input whose collision advances stay in range.
* A file reference records the components that `renamed_file_name` extracts
  from the path string with `ntpath.split` / `basename` / `splitext`:
  the parent directory, the stem, and the extension.
* Python dictionaries are association lists in insertion order; assignment
  `d[k] = v` is `dict_set` (update in place if the key exists, else append).
* `sorted(..., key=lambda p: p[1])` is a stable sort by the instant; it is
  embedded as `List.insertionSort`, which is stable.
-/

namespace ExifRenamer

/-- `timedelta(seconds=1)` in microseconds. -/
def oneSecond : Int := 1000000

/-- The components of a file path used by `renamed_file_name`:
`dir` is the parent directory (`head if tail else dirname(head)`),
`stem ++ ext` the base name, `ext` the `splitext` extension. -/
structure FileRef where
  dir : String
  stem : String
  ext : String
  deriving DecidableEq, Repr

/-- The renamed path produced by `renamed_file_name`:
`join(dir_name, strftime + extension)`. -/
structure TargetName where
  dir : String
  name : String
  deriving DecidableEq, Repr

/-- Whether a year is a leap year (Gregorian rule used by `datetime`). -/
def is_leap (y : Int) : Bool :=
  y % 4 == 0 && (y % 100 != 0 || y % 400 == 0)

/-- Number of days in a month, as validated by the `datetime` constructor. -/
def days_in_month (y m : Int) : Int :=
  if m == 2 then (if is_leap y then 29 else 28)
  else if m == 4 || m == 6 || m == 9 || m == 11 then 30
  else 31

/-- Civil date of a day count since 1970-01-01 (proleptic Gregorian). -/
def civil_from_days (z0 : Int) : Int × Int × Int :=
  let z := z0 + 719468
  let era := z.fdiv 146097
  let doe := z - era * 146097
  let yoe := (doe - doe.fdiv 1460 + doe.fdiv 36524 - doe.fdiv 146096).fdiv 365
  let y := yoe + era * 400
  let doy := doe - (365 * yoe + yoe.fdiv 4 - yoe.fdiv 100)
  let mp := (5 * doy + 2).fdiv 153
  let d := doy - (153 * mp + 2).fdiv 5 + 1
  let m := mp + (if mp < 10 then 3 else -9)
  (if m ≤ 2 then y + 1 else y, m, d)

/-- Day count since 1970-01-01 of a civil date (proleptic Gregorian). -/
def days_from_civil (y0 m d : Int) : Int :=
  let y := if m ≤ 2 then y0 - 1 else y0
  let era := y.fdiv 400
  let yoe := y - era * 400
  let doy := (153 * (m + (if 2 < m then -3 else 9)) + 2).fdiv 5 + d - 1
  let doe := yoe * 365 + yoe.fdiv 4 - yoe.fdiv 100 + doy
  era * 146097 + doe - 719468

/-- Zero-pad a (nonnegative) number to two digits, as `%m`, `%d`, `%H`,
`%M`, `%S` do. -/
def pad2 (n : Int) : String :=
  if n < 10 then "0" ++ toString n else toString n

/-- Zero-pad a (nonnegative) number to four digits, as `%Y` does. -/
def pad4 (n : Int) : String :=
  if n < 10 then "000" ++ toString n
  else if n < 100 then "00" ++ toString n
  else if n < 1000 then "0" ++ toString n
  else toString n

/-- `target_datetime.strftime('%Y-%m-%d %H:%M:%S')`: the second-resolution
rendering of an instant (microseconds are dropped by the format). -/
def format_instant (t : Int) : String :=
  let total := t.fdiv 1000000
  let days := total.fdiv 86400
  let sod := total - days * 86400
  let ymd := civil_from_days days
  pad4 ymd.1 ++ "-" ++ pad2 ymd.2.1 ++ "-" ++ pad2 ymd.2.2 ++ " "
    ++ pad2 (sod.fdiv 3600) ++ ":" ++ pad2 ((sod.fdiv 60) % 60) ++ ":"
    ++ pad2 (sod % 60)

/-- `renamed_file_name(file, target_datetime)`: the formatted instant plus the
original extension, placed in the original parent directory. -/
def renamed_file_name (f : FileRef) (t : Int) : TargetName :=
  ⟨f.dir, format_instant t ++ f.ext⟩

/-- One entry of the `renamings` dictionary: an assigned instant (the key),
the file, and the `time != original_time` flag. -/
abbrev Entry := Int × FileRef × Bool

/-- `time in renamings`: whether an instant is a key of the accumulated
renamings dictionary. -/
def timeAssigned (racc : List Entry) (t : Int) : Bool :=
  racc.any (fun e => e.1 == t)

/-- The body of the `while not collision_resolved` loop, with explicit fuel;
each iteration advances the candidate instant by one second while it is
already assigned.  The advance is taken on the unbounded `Int` timeline;
Python `datetime` is bounded (year 1 to 9999) and its advance raises
`OverflowError` past `datetime.max` — `resolve_steps_checked` below models
that bounded advance, and `apply_strategy_checked_eq` shows the two planners
agree on every input whose advances stay within the `datetime` range. -/
def resolve_steps (fuel : Nat) (racc : List Entry) (t : Int) : Int :=
  match fuel with
  | 0 => t
  | fuel + 1 =>
      if timeAssigned racc t then resolve_steps fuel racc (t + oneSecond)
      else t

/-- The `while not collision_resolved` loop of `calculate_renamings`: starting
from `t`, advance by one second while the candidate is an assigned key.
`racc.length + 1` steps always suffice, because the candidates are pairwise
distinct and the dictionary has only `racc.length` keys
(`resolve_time_unfold` below recovers the literal loop equation). -/
def resolve_time (racc : List Entry) (t : Int) : Int :=
  resolve_steps (racc.length + 1) racc t

/-- The first `for` loop of `calculate_renamings`, accumulating the
`renamings` dictionary (keyed by assigned instant, in insertion order). -/
def apply_strategy (racc : List Entry) : List (FileRef × Int) → List Entry
  | [] => racc
  | (f, t) :: rest =>
      apply_strategy
        (racc ++ [(resolve_time racc t, f, decide (resolve_time racc t ≠ t))])
        rest

/-- The entries the first loop of `calculate_renamings` appends for a given
input suffix, given the renamings accumulated so far. -/
def plan_times (racc : List Entry) : List (FileRef × Int) → List Entry
  | [] => []
  | (f, t) :: rest =>
      (resolve_time racc t, f, decide (resolve_time racc t ≠ t))
        :: plan_times
            (racc ++ [(resolve_time racc t, f, decide (resolve_time racc t ≠ t))])
            rest

/-- Python dictionary assignment `d[k] = v`: update in place when the key is
present, append otherwise. -/
def dict_set (d : List (FileRef × TargetName × Bool)) (k : FileRef)
    (v : TargetName × Bool) : List (FileRef × TargetName × Bool) :=
  if d.any (fun e => e.1 == k) then
    d.map (fun e => if e.1 == k then (k, v) else e)
  else d ++ [(k, v)]

/-- The second `for` loop of `calculate_renamings`: build the `result`
dictionary mapping each file to its renamed path and strategy flag. -/
def build_result (racc : List Entry) : List (FileRef × TargetName × Bool) :=
  racc.foldl (fun res e => dict_set res e.2.1 (renamed_file_name e.2.1 e.1, e.2.2)) []

/-- `sorted(file_to_time_map.items(), key=lambda p: p[1])`: a stable sort of
the input mapping by capture instant. -/
def sort_by_time (m : List (FileRef × Int)) : List (FileRef × Int) :=
  List.insertionSort (fun p q => p.2 ≤ q.2) m

/-- `calculate_renamings(file_to_time_map)`: sort by instant, resolve
collisions with the plus-one-second strategy, and emit the result mapping. -/
def calculate_renamings (m : List (FileRef × Int)) :
    List (FileRef × TargetName × Bool) :=
  build_result (apply_strategy [] (sort_by_time m))

/-- `datetime.max` on the microsecond timeline:
9999-12-31 23:59:59.999999, the largest value a Python `datetime` can
hold. -/
def DATETIME_MAX_MICROSECONDS : Int :=
  (days_from_civil 9999 12 31 * 86400 + 86399) * 1000000 + 999999

/-- `time + timedelta(seconds=1)` with `datetime`'s bounded range: `none`
models the `OverflowError` raised when the sum would pass `datetime.max`
(a positive step cannot underflow `datetime.min`). -/
def plus_second_checked (t : Int) : Option Int :=
  if t + oneSecond ≤ DATETIME_MAX_MICROSECONDS then some (t + oneSecond)
  else none

/-- The collision loop of `calculate_renamings` with the bounded `datetime`
advance: `none` models an `OverflowError` escaping the loop. -/
def resolve_steps_checked (fuel : Nat) (racc : List Entry) (t : Int) :
    Option Int :=
  match fuel with
  | 0 => some t
  | fuel + 1 =>
      if timeAssigned racc t then
        match plus_second_checked t with
        | none => none
        | some t2 => resolve_steps_checked fuel racc t2
      else some t

/-- The `while` loop with the bounded `datetime` advance (fuel as in
`resolve_time`). -/
def resolve_time_checked (racc : List Entry) (t : Int) : Option Int :=
  resolve_steps_checked (racc.length + 1) racc t

/-- The first `for` loop of `calculate_renamings` with the bounded
`datetime` advance; an `OverflowError` in the collision loop propagates. -/
def apply_strategy_checked (racc : List Entry) :
    List (FileRef × Int) → Option (List Entry)
  | [] => some racc
  | (f, t) :: rest =>
      match resolve_time_checked racc t with
      | none => none
      | some t2 =>
          apply_strategy_checked (racc ++ [(t2, f, decide (t2 ≠ t))]) rest

/-- `calculate_renamings` with the bounded `datetime` advance: `none` models
the `OverflowError` escaping the function instead of a plan being
returned. -/
def calculate_renamings_checked (m : List (FileRef × Int)) :
    Option (List (FileRef × TargetName × Bool)) :=
  (apply_strategy_checked [] (sort_by_time m)).map build_result

/-! ### Timestamp resolver (`exif_creation_time`, `creation_time`,
`exif_time_else_creation_time`) -/

/-- The EXIF tag holding the embedded capture time. -/
def EXIF_DATE_TIME_ORIGINAL : String := "EXIF DateTimeOriginal"

/-- The numeric value of a decimal digit character, if it is one. -/
def digitVal (c : Char) : Option Nat :=
  if c.isDigit then some (c.toNat - 48) else none

/-- Read one or two leading digits greedily, as the `%m`, `%d`, `%H`, `%M`,
`%S` patterns of `strptime` do. -/
def two_digit_field (l : List Char) : Option (Nat × List Char) :=
  match l with
  | [] => none
  | c :: rest =>
      match digitVal c with
      | none => none
      | some a =>
          match rest with
          | c2 :: rest2 =>
              match digitVal c2 with
              | none => some (a, rest)
              | some b => some (10 * a + b, rest2)
          | [] => some (a, [])

/-- Read exactly four leading digits, as the `%Y` pattern of `strptime`
does. -/
def four_digit_field (l : List Char) : Option (Nat × List Char) :=
  match l with
  | c1 :: c2 :: c3 :: c4 :: rest =>
      match digitVal c1, digitVal c2, digitVal c3, digitVal c4 with
      | some a, some b, some c, some d =>
          some (1000 * a + 100 * b + 10 * c + d, rest)
      | _, _, _, _ => none
  | _ => none

/-- Require a specific literal character, as literal characters in the
`strptime` format do. -/
def expect_char (c : Char) (l : List Char) : Option (List Char) :=
  match l with
  | [] => none
  | c2 :: rest => if c2 == c then some rest else none

/-- `datetime.strptime(s, '%Y:%m:%d %H:%M:%S')`: parse the fixed EXIF format
and validate the field ranges the `datetime` constructor enforces; `none`
models a raised `ValueError`.  A successful parse is converted to the
microsecond timeline via the civil-day count. -/
def strptime_exif (s : String) : Option Int := do
  let l0 := s.toList
  let (y, l1) ← four_digit_field l0
  let l2 ← expect_char ':' l1
  let (mo, l3) ← two_digit_field l2
  let l4 ← expect_char ':' l3
  let (d, l5) ← two_digit_field l4
  let l6 ← expect_char ' ' l5
  let (h, l7) ← two_digit_field l6
  let l8 ← expect_char ':' l7
  let (mi, l9) ← two_digit_field l8
  let l10 ← expect_char ':' l9
  let (sec, l11) ← two_digit_field l10
  if l11 ≠ [] then none
  else if y < 1 then none
  else if mo < 1 ∨ 12 < mo then none
  else if d < 1 ∨ days_in_month y mo < (d : Int) then none
  else if 23 < h then none
  else if 59 < mi then none
  else if 59 < sec then none
  else
    some (((days_from_civil y mo d) * 86400
      + (h : Int) * 3600 + (mi : Int) * 60 + (sec : Int)) * 1000000)

/-- Python dictionary lookup `tags[key]` preceded by a `key in tags` test. -/
def dict_get (key : String) (tags : List (String × String)) : Option String :=
  (tags.find? (fun e => e.1 == key)).map (fun e => e.2)

/-- The filesystem metadata of a file, as seen by `creation_time`:
`getctime` (used on Windows), the optional `st_birthtime`, and `st_mtime`. -/
structure FsMeta where
  ctime : Int
  birthtime : Option Int
  mtime : Int
  deriving DecidableEq, Repr

/-- `creation_time(file)`: on Windows use `getctime`; otherwise use
`st_birthtime`, falling back to `st_mtime` when the attribute is absent. -/
def creation_time (osName : String) (fs : FsMeta) : Int :=
  if osName = "Windows" then fs.ctime
  else
    match fs.birthtime with
    | some b => b
    | none => fs.mtime

/-- `exif_creation_time(file)`: `none` when the tag is absent, the parsed
instant when present and well formed, and a propagated `ValueError`
(carrying the offending string) when present but malformed. -/
def exif_creation_time (tags : List (String × String)) :
    Except String (Option Int) :=
  match dict_get EXIF_DATE_TIME_ORIGINAL tags with
  | none => Except.ok none
  | some s =>
      match strptime_exif s with
      | some t => Except.ok (some t)
      | none => Except.error s

/-- `exif_time_else_creation_time(file)`: the embedded instant when present,
the filesystem creation time when the tag is absent, and a propagated error
when the tag is present but malformed. -/
def exif_time_else_creation_time (osName : String)
    (tags : List (String × String)) (fs : FsMeta) : Except String Int :=
  match exif_creation_time tags with
  | Except.error e => Except.error e
  | Except.ok none => Except.ok (creation_time osName fs)
  | Except.ok (some t) => Except.ok t

/-- ASCII lower-casing of one character, as `str.lower` acts on the ASCII
letters (the extension allow-lists below are pure ASCII). -/
def lower_char (c : Char) : Char :=
  if 65 ≤ c.toNat ∧ c.toNat ≤ 90 then Char.ofNat (c.toNat + 32) else c

/-- `has_extension(file, extensions)`: `file.lower().endswith(ext)` for any
allowed extension (case-insensitive suffix match). -/
def has_extension (file : String) (exts : List String) : Bool :=
  exts.any (fun ext => ext.data.isSuffixOf (file.data.map lower_char))

/-- The image extension allow-list. -/
def image_extensions : List String := [".jpg", ".jpeg"]

/-- The video extension allow-list. -/
def video_extensions : List String := [".mp4", ".mov", ".avi"]

/-- `is_image(file)`. -/
def is_image (file : String) : Bool := has_extension file image_extensions

/-- `is_video(file)`. -/
def is_video (file : String) : Bool := has_extension file video_extensions

/-- The per-file dispatch of `main`: image files get
`exif_time_else_creation_time`, the other (video) candidates get
`creation_time`. -/
def resolve_media (file : String) (osName : String)
    (tags : List (String × String)) (fs : FsMeta) : Except String Int :=
  if is_image file then exif_time_else_creation_time osName tags fs
  else Except.ok (creation_time osName fs)

/-- Proof-internal loop invariant of the first loop of `calculate_renamings`:
every assigned instant either has its one-second predecessor assigned as well
(it was reached by probing) or is at most `t` (it is the original instant of a
file processed while originals were still at most `t`). -/
def chain_inv (racc : List Entry) (t : Int) : Prop :=
  ∀ e ∈ racc, (∃ e2 ∈ racc, e2.1 = e.1 - oneSecond) ∨ e.1 ≤ t

/-- Proof-internal measure for the collision loop: the number of assigned
entries at or above the current candidate. -/
def thrCount (racc : List Entry) (t : Int) : Nat :=
  (racc.filter (fun e => decide (t ≤ e.1))).length

/-- The sort key order on (file, instant) pairs is total. -/
instance : IsTotal (FileRef × Int) (fun p q => p.2 ≤ q.2) :=
  ⟨fun a b => Int.le_total a.2 b.2⟩

/-- The sort key order on (file, instant) pairs is transitive. -/
instance : IsTrans (FileRef × Int) (fun p q => p.2 ≤ q.2) :=
  ⟨fun _ _ _ h1 h2 => le_trans h1 h2⟩

/-- The strict sort key order is (vacuously) antisymmetric. -/
instance : IsAntisymm (FileRef × Int) (fun p q => p.2 < q.2) :=
  ⟨fun _ _ h1 h2 => absurd (lt_trans h1 h2) (lt_irrefl _)⟩

end ExifRenamer

namespace ExifRenamer

/-! ### Lemmas about the collision-probing loop -/

theorem oneSecond_pos : 0 < oneSecond := by decide

theorem resolve_steps_zero (racc : List Entry) (t : Int) :
    resolve_steps 0 racc t = t := rfl

theorem resolve_steps_succ (fuel : Nat) (racc : List Entry) (t : Int) :
    resolve_steps (fuel + 1) racc t
      = if timeAssigned racc t then resolve_steps fuel racc (t + oneSecond)
        else t := rfl

theorem timeAssigned_iff (racc : List Entry) (t : Int) :
    timeAssigned racc t = true ↔ ∃ e ∈ racc, e.1 = t := by
  simp [timeAssigned, List.any_eq_true]

theorem timeAssigned_append (racc racc2 : List Entry) (t : Int) :
    timeAssigned (racc ++ racc2) t
      = (timeAssigned racc t || timeAssigned racc2 t) := by
  simp [timeAssigned, List.any_append]

theorem thrCount_le (racc : List Entry) (t : Int) :
    thrCount racc t ≤ racc.length :=
  List.length_filter_le _ _

theorem thrCount_mono (racc : List Entry) (t : Int) :
    thrCount racc (t + oneSecond) ≤ thrCount racc t := by
  induction racc with
  | nil => simp [thrCount]
  | cons y ys ih =>
      have hos := oneSecond_pos
      simp only [thrCount, List.filter_cons, decide_eq_true_eq] at ih ⊢
      by_cases h1 : t + oneSecond ≤ y.1
      · have h2 : t ≤ y.1 := by omega
        rw [if_pos h1, if_pos h2]
        simp only [List.length_cons]
        omega
      · rw [if_neg h1]
        by_cases h2 : t ≤ y.1
        · rw [if_pos h2]
          simp only [List.length_cons]
          omega
        · rw [if_neg h2]
          omega

theorem thrCount_lt_of_assigned (racc : List Entry) (t : Int)
    (h : timeAssigned racc t = true) :
    thrCount racc (t + oneSecond) < thrCount racc t := by
  rcases (timeAssigned_iff racc t).1 h with ⟨e, he, het⟩
  clear h
  induction racc with
  | nil => cases he
  | cons x xs ih =>
      have hos := oneSecond_pos
      rcases List.mem_cons.1 he with hx | hxs
      · subst hx
        have h1 : t ≤ e.1 := by omega
        have h2 : ¬ (t + oneSecond ≤ e.1) := by omega
        simp only [thrCount, List.filter_cons, h1, h2, decide_eq_true_eq]
        simp only [if_pos trivial, if_neg (fun hc => hc), List.length_cons]
        have := thrCount_mono xs t
        simp only [thrCount] at this
        omega
      · have hstep := ih hxs
        simp only [thrCount, List.filter_cons, decide_eq_true_eq] at hstep ⊢
        by_cases h1 : t + oneSecond ≤ x.1
        · have h2 : t ≤ x.1 := by omega
          simp only [h1, h2, if_pos trivial, List.length_cons]
          omega
        · by_cases h2 : t ≤ x.1 <;>
            simp only [h1, h2, if_pos, if_neg, trivial, List.length_cons,
              if_true, if_false] <;>
            omega

theorem resolve_steps_congr (racc : List Entry) :
    ∀ f1 : Nat, ∀ f2 : Nat, ∀ t : Int,
      thrCount racc t < f1 → thrCount racc t < f2 →
      resolve_steps f1 racc t = resolve_steps f2 racc t := by
  intro f1
  induction f1 with
  | zero => intro f2 t h1 h2; omega
  | succ a ih =>
      intro f2 t h1 h2
      match f2, h2 with
      | b + 1, h2 =>
        rw [resolve_steps_succ, resolve_steps_succ]
        by_cases ha : timeAssigned racc t = true
        · have hlt := thrCount_lt_of_assigned racc t ha
          rw [if_pos ha, if_pos ha]
          exact ih b (t + oneSecond) (by omega) (by omega)
        · rw [if_neg ha, if_neg ha]

theorem resolve_time_unfold (racc : List Entry) (t : Int) :
    resolve_time racc t
      = if timeAssigned racc t then resolve_time racc (t + oneSecond) else t := by
  by_cases ha : timeAssigned racc t = true
  · have hle := thrCount_le racc t
    have hlt := thrCount_lt_of_assigned racc t ha
    have hle2 := thrCount_le racc (t + oneSecond)
    simp only [resolve_time]
    rw [resolve_steps_succ, if_pos ha, if_pos ha]
    exact resolve_steps_congr racc racc.length (racc.length + 1) (t + oneSecond)
      (by omega) (by omega)
  · simp only [resolve_time]
    rw [resolve_steps_succ, if_neg ha, if_neg ha]

theorem resolve_steps_ge (racc : List Entry) :
    ∀ fuel : Nat, ∀ t : Int, t ≤ resolve_steps fuel racc t := by
  intro fuel
  induction fuel with
  | zero => intro t; rw [resolve_steps_zero]
  | succ a ih =>
      intro t
      rw [resolve_steps_succ]
      by_cases ha : timeAssigned racc t = true
      · rw [if_pos ha]
        have h1 := ih (t + oneSecond)
        have h2 := oneSecond_pos
        omega
      · rw [if_neg ha]

theorem resolve_time_ge (racc : List Entry) (t : Int) :
    t ≤ resolve_time racc t :=
  resolve_steps_ge racc (racc.length + 1) t

theorem resolve_steps_lattice (racc : List Entry) :
    ∀ fuel : Nat, ∀ t : Int, ∃ k : Nat,
      resolve_steps fuel racc t = t + (k : Int) * oneSecond := by
  intro fuel
  induction fuel with
  | zero => intro t; exact ⟨0, by rw [resolve_steps_zero]; simp⟩
  | succ a ih =>
      intro t
      rw [resolve_steps_succ]
      by_cases ha : timeAssigned racc t = true
      · rcases ih (t + oneSecond) with ⟨k, hk⟩
        refine ⟨k + 1, ?_⟩
        rw [if_pos ha, hk]
        push_cast
        ring
      · exact ⟨0, by rw [if_neg ha]; simp⟩

theorem resolve_time_lattice (racc : List Entry) (t : Int) :
    ∃ k : Nat, resolve_time racc t = t + (k : Int) * oneSecond :=
  resolve_steps_lattice racc (racc.length + 1) t

theorem resolve_steps_free (racc : List Entry) :
    ∀ fuel : Nat, ∀ t : Int, thrCount racc t < fuel →
      timeAssigned racc (resolve_steps fuel racc t) = false := by
  intro fuel
  induction fuel with
  | zero => intro t h; omega
  | succ a ih =>
      intro t h
      rw [resolve_steps_succ]
      by_cases ha : timeAssigned racc t = true
      · have := thrCount_lt_of_assigned racc t ha
        rw [if_pos ha]
        exact ih (t + oneSecond) (by omega)
      · rw [if_neg ha]
        exact Bool.eq_false_iff.2 ha

theorem resolve_time_free (racc : List Entry) (t : Int) :
    timeAssigned racc (resolve_time racc t) = false :=
  resolve_steps_free racc (racc.length + 1) t
    (Nat.lt_succ_of_le (thrCount_le racc t))

theorem resolve_time_min (racc : List Entry) :
    ∀ k : Nat, ∀ t : Int,
      (∀ j : Nat, j < k → timeAssigned racc (t + (j : Int) * oneSecond) = true) →
      timeAssigned racc (t + (k : Int) * oneSecond) = false →
      resolve_time racc t = t + (k : Int) * oneSecond := by
  intro k
  induction k with
  | zero =>
      intro t _ hfree
      have hfree2 : timeAssigned racc t = false := by simpa using hfree
      rw [resolve_time_unfold, if_neg (by simp [hfree2])]
      simp
  | succ a ih =>
      intro t hbelow hfree
      have h0 : timeAssigned racc t = true := by
        have := hbelow 0 (by omega)
        simpa using this
      rw [resolve_time_unfold, if_pos h0]
      have harith : ∀ j : Nat, t + oneSecond + (j : Int) * oneSecond
          = t + ((j + 1 : Nat) : Int) * oneSecond := by
        intro j; push_cast; ring
      have := ih (t + oneSecond)
        (fun j hj => by rw [harith j]; exact hbelow (j + 1) (by omega))
        (by rw [harith a]; exact hfree)
      rw [this, harith a]

theorem resolve_steps_probe (racc : List Entry) :
    ∀ fuel : Nat, ∀ t : Int, ∀ j : Nat,
      t + (j : Int) * oneSecond < resolve_steps fuel racc t →
      timeAssigned racc (t + (j : Int) * oneSecond) = true := by
  intro fuel
  induction fuel with
  | zero =>
      intro t j h
      rw [resolve_steps_zero] at h
      have h2 : (0 : Int) ≤ (j : Int) * oneSecond :=
        mul_nonneg (Int.natCast_nonneg j) (le_of_lt oneSecond_pos)
      omega
  | succ a ih =>
      intro t j h
      rw [resolve_steps_succ] at h
      by_cases ha : timeAssigned racc t = true
      · rw [if_pos ha] at h
        match j with
        | 0 => simpa using ha
        | j + 1 =>
            have harith : t + ((j + 1 : Nat) : Int) * oneSecond
                = (t + oneSecond) + (j : Int) * oneSecond := by push_cast; ring
            rw [harith] at h ⊢
            exact ih (t + oneSecond) j h
      · rw [if_neg ha] at h
        have h2 : (0 : Int) ≤ (j : Int) * oneSecond :=
          mul_nonneg (Int.natCast_nonneg j) (le_of_lt oneSecond_pos)
        omega

theorem resolve_time_probe (racc : List Entry) (t : Int) (j : Nat)
    (h : t + (j : Int) * oneSecond < resolve_time racc t) :
    timeAssigned racc (t + (j : Int) * oneSecond) = true :=
  resolve_steps_probe racc (racc.length + 1) t j h


/-! ### Structure of the first loop of `calculate_renamings` -/

theorem apply_strategy_eq (l : List (FileRef × Int)) :
    ∀ racc : List Entry, apply_strategy racc l = racc ++ plan_times racc l := by
  induction l with
  | nil => intro racc; simp [apply_strategy, plan_times]
  | cons p rest ih =>
      intro racc
      obtain ⟨f, t⟩ := p
      simp only [apply_strategy, plan_times]
      rw [ih]
      simp

theorem plan_times_append (l1 : List (FileRef × Int)) :
    ∀ l2 : List (FileRef × Int), ∀ racc : List Entry,
      plan_times racc (l1 ++ l2)
        = plan_times racc l1 ++ plan_times (racc ++ plan_times racc l1) l2 := by
  induction l1 with
  | nil => intro l2 racc; simp [plan_times]
  | cons p rest ih =>
      intro l2 racc
      obtain ⟨f, t⟩ := p
      simp only [List.cons_append, plan_times, List.append_eq]
      rw [ih]
      simp

theorem plan_times_length (l : List (FileRef × Int)) :
    ∀ racc : List Entry, (plan_times racc l).length = l.length := by
  induction l with
  | nil => intro racc; simp [plan_times]
  | cons p rest ih =>
      intro racc
      obtain ⟨f, t⟩ := p
      simp only [plan_times, List.length_cons, ih]

theorem plan_times_files (l : List (FileRef × Int)) :
    ∀ racc : List Entry,
      (plan_times racc l).map (fun e => e.2.1) = l.map Prod.fst := by
  induction l with
  | nil => intro racc; simp [plan_times]
  | cons p rest ih =>
      intro racc
      obtain ⟨f, t⟩ := p
      simp only [plan_times, List.map_cons, ih]

theorem plan_times_mem (l : List (FileRef × Int)) :
    ∀ racc : List Entry, ∀ e ∈ plan_times racc l,
      ∃ p, p ∈ l ∧ e.2.1 = p.1 ∧ e.2.2 = decide (e.1 ≠ p.2) ∧ p.2 ≤ e.1 := by
  induction l with
  | nil => intro racc e he; simp [plan_times] at he
  | cons p rest ih =>
      intro racc e he
      obtain ⟨f, t⟩ := p
      simp only [plan_times, List.mem_cons] at he
      rcases he with hhead | htail
      · subst hhead
        exact ⟨(f, t), List.mem_cons_self _ _, rfl, rfl, resolve_time_ge racc t⟩
      · rcases ih _ e htail with ⟨q, hq, h1, h2, h3⟩
        exact ⟨q, List.mem_cons_of_mem _ hq, h1, h2, h3⟩

/-! ### The chain invariant and consecutive assignment of equal-instant runs -/

theorem chain_inv_nil (t : Int) : chain_inv [] t := by
  intro e he
  cases he

theorem chain_inv_mono (racc : List Entry) (t t2 : Int)
    (h : chain_inv racc t) (hle : t ≤ t2) : chain_inv racc t2 :=
  fun e he => (h e he).imp id (fun h2 => le_trans h2 hle)

theorem chain_inv_append_entry (racc : List Entry) (t u : Int) (f : FileRef)
    (b : Bool) (h : chain_inv racc t) (hu : u ≤ t) :
    chain_inv (racc ++ [(resolve_time racc u, f, b)]) t := by
  intro e he
  rcases List.mem_append.1 he with hold | hnew
  · rcases h e hold with ⟨e2, he2, heq⟩ | hle
    · exact Or.inl ⟨e2, List.mem_append_left _ he2, heq⟩
    · exact Or.inr hle
  · have he2 : e = (resolve_time racc u, f, b) := by simpa using hnew
    subst he2
    rcases resolve_time_lattice racc u with ⟨k, hk⟩
    match k, hk with
    | 0, hk =>
        right
        simp only [Nat.cast_zero, zero_mul, add_zero] at hk
        simpa [hk] using hu
    | k + 1, hk =>
        left
        have hlt : u + (k : Int) * oneSecond < resolve_time racc u := by
          rw [hk]
          have h1 : (k : Int) < ((k + 1 : Nat) : Int) := by push_cast; omega
          have := mul_lt_mul_of_pos_right h1 oneSecond_pos
          omega
        have hmem := resolve_time_probe racc u k hlt
        rcases (timeAssigned_iff racc _).1 hmem with ⟨e2, he2, heq⟩
        refine ⟨e2, List.mem_append_left _ he2, ?_⟩
        rw [heq, hk]
        push_cast
        ring

theorem chain_inv_apply (l : List (FileRef × Int)) :
    ∀ racc : List Entry, ∀ t : Int, chain_inv racc t → (∀ p ∈ l, p.2 ≤ t) →
      chain_inv (apply_strategy racc l) t := by
  induction l with
  | nil => intro racc t h _; simpa [apply_strategy] using h
  | cons p rest ih =>
      intro racc t h hb
      obtain ⟨f, u⟩ := p
      simp only [apply_strategy]
      refine ih _ t ?_ (fun q hq => hb q (List.mem_cons_of_mem _ hq))
      exact chain_inv_append_entry racc t u f _ h (hb (f, u) (List.mem_cons_self _ _))

theorem resolve_time_succ (racc : List Entry) (t : Int) (f : FileRef) (b : Bool)
    (hinv : chain_inv racc t) :
    resolve_time (racc ++ [(resolve_time racc t, f, b)]) t
      = resolve_time racc t + oneSecond := by
  rcases resolve_time_lattice racc t with ⟨k, hk⟩
  have hbelow : ∀ j : Nat, j < k + 1 →
      timeAssigned (racc ++ [(resolve_time racc t, f, b)])
        (t + (j : Int) * oneSecond) = true := by
    intro j hj
    rw [timeAssigned_append]
    rcases Nat.lt_or_ge j k with hjk | hjk
    · have hlt : t + (j : Int) * oneSecond < resolve_time racc t := by
        rw [hk]
        have h1 : (j : Int) < (k : Int) := by exact_mod_cast hjk
        have := mul_lt_mul_of_pos_right h1 oneSecond_pos
        omega
      rw [resolve_time_probe racc t j hlt]
      simp
    · have hjeq : j = k := by omega
      subst hjeq
      have : timeAssigned [(resolve_time racc t, f, b)]
          (t + (j : Int) * oneSecond) = true := by
        simp [timeAssigned, hk]
      rw [this]
      simp
  have hfree : timeAssigned (racc ++ [(resolve_time racc t, f, b)])
      (t + ((k + 1 : Nat) : Int) * oneSecond) = false := by
    rw [timeAssigned_append]
    have hone : resolve_time racc t < t + ((k + 1 : Nat) : Int) * oneSecond := by
      rw [hk]
      have h1 : (k : Int) < ((k + 1 : Nat) : Int) := by push_cast; omega
      have := mul_lt_mul_of_pos_right h1 oneSecond_pos
      omega
    have hnew : timeAssigned [(resolve_time racc t, f, b)]
        (t + ((k + 1 : Nat) : Int) * oneSecond) = false := by
      simp only [timeAssigned, List.any_cons, List.any_nil, Bool.or_false]
      rw [beq_eq_false_iff_ne]
      omega
    have hold : timeAssigned racc (t + ((k + 1 : Nat) : Int) * oneSecond) = false := by
      by_cases hb2 : timeAssigned racc (t + ((k + 1 : Nat) : Int) * oneSecond) = true
      swap
      · exact Bool.eq_false_iff.2 hb2
      · exfalso
        rcases (timeAssigned_iff racc _).1 hb2 with ⟨e2, he2, heq⟩
        rcases hinv e2 he2 with ⟨e3, he3, heq3⟩ | hle
        · have he3res : e3.1 = resolve_time racc t := by
            rw [heq3, heq, hk]
            push_cast
            ring_nf
          have : timeAssigned racc (resolve_time racc t) = true :=
            (timeAssigned_iff racc _).2 ⟨e3, he3, he3res⟩
          rw [resolve_time_free racc t] at this
          cases this
        · have hge : t ≤ resolve_time racc t := resolve_time_ge racc t
          omega
    rw [hnew, hold]
    rfl
  have := resolve_time_min (racc ++ [(resolve_time racc t, f, b)]) (k + 1) t
    hbelow hfree
  rw [this, hk]
  push_cast
  ring

theorem cluster_times (mid : List (FileRef × Int)) :
    ∀ racc : List Entry, ∀ t : Int, chain_inv racc t → (∀ p ∈ mid, p.2 = t) →
      (plan_times racc mid).map (fun e => e.1)
        = (List.range mid.length).map
            (fun k : Nat => resolve_time racc t + (k : Int) * oneSecond) := by
  induction mid with
  | nil => intro racc t _ _; simp [plan_times]
  | cons p rest ih =>
      intro racc t hinv hmid
      obtain ⟨f, t0⟩ := p
      have ht0 : t0 = t := hmid (f, t0) (List.mem_cons_self _ _)
      subst ht0
      simp only [plan_times, List.map_cons, List.length_cons]
      have hinv2 := chain_inv_append_entry racc t0 t0 f
        (decide (resolve_time racc t0 ≠ t0)) hinv le_rfl
      have hIH := ih (racc ++ [(resolve_time racc t0, f,
        decide (resolve_time racc t0 ≠ t0))]) t0 hinv2
        (fun q hq => hmid q (List.mem_cons_of_mem _ hq))
      rw [hIH]
      rw [resolve_time_succ racc t0 f (decide (resolve_time racc t0 ≠ t0)) hinv]
      rw [List.range_succ_eq_map]
      simp only [List.map_cons, List.map_map, Nat.cast_zero, zero_mul, add_zero]
      have hfg : (fun k : Nat => resolve_time racc t0 + oneSecond + (k : Int) * oneSecond)
          = ((fun k : Nat => resolve_time racc t0 + (k : Int) * oneSecond) ∘ Nat.succ) := by
        funext k
        simp only [Function.comp_apply, Nat.succ_eq_add_one]
        push_cast
        ring
      rw [hfg]


/-! ### The stable sort by capture instant -/

theorem sort_by_time_perm (m : List (FileRef × Int)) :
    (sort_by_time m).Perm m :=
  List.perm_insertionSort _ m

theorem sort_by_time_sorted (m : List (FileRef × Int)) :
    (sort_by_time m).Sorted (fun p q => p.2 ≤ q.2) :=
  List.sorted_insertionSort _ m

theorem sorted_strict_of_nodup (l : List (FileRef × Int))
    (hs : l.Sorted (fun p q => p.2 ≤ q.2)) (hnd : (l.map Prod.snd).Nodup) :
    l.Sorted (fun p q => p.2 < q.2) := by
  have hne : l.Pairwise (fun a b => a.2 ≠ b.2) := List.pairwise_map.1 hnd
  exact (List.Pairwise.and hs hne).imp (fun h => lt_of_le_of_ne h.1 h.2)

theorem sorted_nodup_unique (l1 l2 : List (FileRef × Int)) (hp : l1.Perm l2)
    (hs1 : l1.Sorted (fun p q => p.2 ≤ q.2))
    (hs2 : l2.Sorted (fun p q => p.2 ≤ q.2))
    (hnd : (l1.map Prod.snd).Nodup) : l1 = l2 := by
  have hnd2 : (l2.map Prod.snd).Nodup := ((hp.map Prod.snd).nodup_iff).1 hnd
  exact List.eq_of_perm_of_sorted hp
    (sorted_strict_of_nodup l1 hs1 hnd) (sorted_strict_of_nodup l2 hs2 hnd2)

/-! ### The collision-free case and the result dictionary -/

theorem plan_times_nocollision (l : List (FileRef × Int)) :
    ∀ racc : List Entry,
      ((racc.map (fun e => e.1)) ++ l.map Prod.snd).Nodup →
      plan_times racc l = l.map (fun p => (p.2, p.1, false)) := by
  induction l with
  | nil => intro racc _; simp [plan_times]
  | cons p rest ih =>
      intro racc hnd
      obtain ⟨f, t⟩ := p
      have htmem : t ∈ ((f, t) :: rest).map Prod.snd := by simp
      have hma : timeAssigned racc t = false := by
        by_cases hb : timeAssigned racc t = true
        · exfalso
          rcases (timeAssigned_iff racc t).1 hb with ⟨e, he, heq⟩
          have hleft : t ∈ racc.map (fun e => e.1) :=
            List.mem_map.2 ⟨e, he, heq⟩
          exact (List.disjoint_of_nodup_append hnd) hleft htmem
        · exact Bool.eq_false_iff.2 hb
      have hres : resolve_time racc t = t := by
        rw [resolve_time_unfold]
        simp [hma]
      simp only [plan_times, hres, List.map_cons]
      have hflag : decide (t ≠ t) = false := by simp
      rw [hflag]
      have hkeys : ((racc ++ [(t, f, false)]).map (fun e => e.1)) ++ rest.map Prod.snd
          = racc.map (fun e => e.1) ++ ((f, t) :: rest).map Prod.snd := by
        simp
      rw [ih (racc ++ [(t, f, false)]) (by rw [hkeys]; exact hnd)]

theorem dict_set_fresh (d : List (FileRef × TargetName × Bool)) (k : FileRef)
    (v : TargetName × Bool) (h : ¬ k ∈ d.map Prod.fst) :
    dict_set d k v = d ++ [(k, v)] := by
  have hany : d.any (fun e => e.1 == k) = false := by
    rw [Bool.eq_false_iff]
    intro hc
    rcases List.any_eq_true.1 hc with ⟨e, he, heq⟩
    exact h (List.mem_map.2 ⟨e, he, (beq_iff_eq.1 heq).symm ▸ rfl⟩)
  simp only [dict_set, hany]
  simp

theorem build_result_foldl (rl : List Entry) :
    ∀ res : List (FileRef × TargetName × Bool),
      ((res.map Prod.fst) ++ rl.map (fun e => e.2.1)).Nodup →
      List.foldl
        (fun res e => dict_set res e.2.1 (renamed_file_name e.2.1 e.1, e.2.2))
        res rl
        = res ++ rl.map (fun e => (e.2.1, renamed_file_name e.2.1 e.1, e.2.2)) := by
  induction rl with
  | nil => intro res _; simp
  | cons e rest ih =>
      intro res hnd
      simp only [List.foldl_cons]
      have hfresh : ¬ e.2.1 ∈ res.map Prod.fst := by
        intro hc
        have hright : e.2.1 ∈ (e :: rest).map (fun e => e.2.1) := by simp
        exact (List.disjoint_of_nodup_append hnd) hc hright
      rw [dict_set_fresh res e.2.1 _ hfresh]
      have hkeys : ((res ++ [(e.2.1, renamed_file_name e.2.1 e.1, e.2.2)]).map Prod.fst)
            ++ rest.map (fun e => e.2.1)
          = res.map Prod.fst ++ ((e :: rest).map (fun e => e.2.1)) := by
        simp
      rw [ih (res ++ [(e.2.1, renamed_file_name e.2.1 e.1, e.2.2)])
        (by rw [hkeys]; exact hnd)]
      simp

theorem build_result_eq (rl : List Entry)
    (hnd : (rl.map (fun e => e.2.1)).Nodup) :
    build_result rl
      = rl.map (fun e => (e.2.1, renamed_file_name e.2.1 e.1, e.2.2)) := by
  have := build_result_foldl rl [] (by simpa using hnd)
  simpa [build_result] using this

theorem lookup_of_mem_nodup {β : Type} (l : List (FileRef × β)) (p : FileRef × β)
    (hnd : (l.map Prod.fst).Nodup) (hp : p ∈ l) :
    List.lookup p.1 l = some p.2 := by
  induction l with
  | nil => cases hp
  | cons q rest ih =>
      obtain ⟨qk, qv⟩ := q
      rcases List.mem_cons.1 hp with h | h
      · subst h
        simp [List.lookup]
      · have hne : p.1 ≠ qk := by
          intro heq
          have h1 : qk ∉ rest.map Prod.fst := (List.nodup_cons.1 (by simpa using hnd)).1
          exact h1 (heq ▸ List.mem_map.2 ⟨p, h, rfl⟩)
        have hbeq : (p.1 == qk) = false := by
          rw [beq_eq_false_iff_ne]
          exact hne
        simp only [List.lookup, hbeq]
        exact ih (by simpa using (List.nodup_cons.1 (by simpa using hnd)).2) h


/-! ### Agreement of the bounded-datetime planner with the unbounded one -/

theorem resolve_steps_checked_zero (racc : List Entry) (t : Int) :
    resolve_steps_checked 0 racc t = some t := rfl

theorem resolve_steps_checked_succ (fuel : Nat) (racc : List Entry) (t : Int) :
    resolve_steps_checked (fuel + 1) racc t
      = if timeAssigned racc t then
          (match plus_second_checked t with
            | none => none
            | some t2 => resolve_steps_checked fuel racc t2)
        else some t := rfl

theorem resolve_steps_checked_eq (racc : List Entry) :
    ∀ fuel : Nat, ∀ t : Int,
      t + (fuel : Int) * oneSecond ≤ DATETIME_MAX_MICROSECONDS →
      resolve_steps_checked fuel racc t = some (resolve_steps fuel racc t) := by
  intro fuel
  induction fuel with
  | zero => intro t _; rfl
  | succ n ih =>
      intro t h
      rw [resolve_steps_checked_succ, resolve_steps_succ]
      by_cases ha : timeAssigned racc t = true
      · rw [if_pos ha, if_pos ha]
        have hexp : ((n + 1 : Nat) : Int) * oneSecond
            = (n : Int) * oneSecond + oneSecond := by
          push_cast
          ring
        rw [hexp] at h
        have hnn : (0 : Int) ≤ (n : Int) * oneSecond :=
          mul_nonneg (Int.natCast_nonneg n) (le_of_lt oneSecond_pos)
        have hle : t + oneSecond ≤ DATETIME_MAX_MICROSECONDS := by linarith
        have hsome : plus_second_checked t = some (t + oneSecond) := by
          simp only [plus_second_checked]
          rw [if_pos hle]
        rw [hsome]
        exact ih (t + oneSecond) (by linarith)
      · rw [if_neg ha, if_neg ha]

theorem apply_strategy_checked_eq (l : List (FileRef × Int)) :
    ∀ racc : List Entry, ∀ n : Nat, racc.length + l.length ≤ n →
      (∀ p ∈ l, p.2 + (n : Int) * oneSecond ≤ DATETIME_MAX_MICROSECONDS) →
      apply_strategy_checked racc l = some (apply_strategy racc l) := by
  induction l with
  | nil => intro racc n _ _; rfl
  | cons p rest ih =>
      intro racc n hlen hb
      obtain ⟨f, t⟩ := p
      have hcast : ((racc.length + 1 : Nat) : Int) ≤ (n : Int) := by
        have h1 : racc.length + 1 ≤ n := by
          simp only [List.length_cons] at hlen
          omega
        exact_mod_cast h1
      have hmul : ((racc.length + 1 : Nat) : Int) * oneSecond
          ≤ (n : Int) * oneSecond :=
        mul_le_mul_of_nonneg_right hcast (le_of_lt oneSecond_pos)
      have hhead : t + (n : Int) * oneSecond ≤ DATETIME_MAX_MICROSECONDS :=
        hb (f, t) (List.mem_cons_self _ _)
      have hbound : t + ((racc.length + 1 : Nat) : Int) * oneSecond
          ≤ DATETIME_MAX_MICROSECONDS := by linarith
      have hres := resolve_steps_checked_eq racc (racc.length + 1) t hbound
      simp only [apply_strategy_checked, apply_strategy, resolve_time_checked,
        resolve_time]
      rw [hres]
      apply ih _ n ?_ (fun q hq => hb q (List.mem_cons_of_mem _ hq))
      simp only [List.length_append, List.length_cons, List.length_nil]
        at hlen ⊢
      omega

/-! ### Claim theorems -/

/-- Claim C1. Uniqueness of target names fails on the code: two files of the
same directory and extension whose capture instants fall in the same second
(microseconds 0 and 500000 of 1970-01-01 00:00:00) are both kept — their
instants differ, so no collision is detected — yet both format to the same
target name, so the emitted plan contains duplicate target names.  This
contradicts the uniqueness invariant and the docstring of
`calculate_renamings` itself. -/
theorem claim_c1_uniqueness_violation :
    (calculate_renamings
        [(⟨"photos", "a", ".mp4"⟩, 0), (⟨"photos", "b", ".mp4"⟩, 500000)]).map
          (fun e => e.2.1)
      = [⟨"photos", "1970-01-01 00:00:00.mp4"⟩,
         ⟨"photos", "1970-01-01 00:00:00.mp4"⟩]
    ∧ ¬ ((calculate_renamings
        [(⟨"photos", "a", ".mp4"⟩, 0), (⟨"photos", "b", ".mp4"⟩, 500000)]).map
          (fun e => e.2.1)).Nodup
    ∧ ((⟨"photos", "a", ".mp4"⟩ : FileRef) ≠ ⟨"photos", "b", ".mp4"⟩) := by
  refine ⟨by decide, by decide, by decide⟩

/-- Claim C2, counterexample. Order-independence fails when two files share a
capture instant: the stable sort keeps the input iteration order for equal
keys, so enumerating the same set of pairs in the two possible orders swaps
which file keeps the instant and which is displaced by one second. -/
theorem claim_c2_counterexample :
    ([((⟨"photos", "a", ".mp4"⟩ : FileRef), (0 : Int)),
      (⟨"photos", "b", ".mp4"⟩, 0)]).Perm
        [((⟨"photos", "b", ".mp4"⟩ : FileRef), (0 : Int)),
         (⟨"photos", "a", ".mp4"⟩, 0)]
    ∧ List.lookup (⟨"photos", "a", ".mp4"⟩ : FileRef)
        (calculate_renamings
          [(⟨"photos", "a", ".mp4"⟩, 0), (⟨"photos", "b", ".mp4"⟩, 0)])
      ≠ List.lookup (⟨"photos", "a", ".mp4"⟩ : FileRef)
        (calculate_renamings
          [(⟨"photos", "b", ".mp4"⟩, 0), (⟨"photos", "a", ".mp4"⟩, 0)]) := by
  refine ⟨List.Perm.swap _ _ _, by decide⟩

/-- Claim C2, amended. The planner is a pure function of its input
enumeration, and whenever the capture instants are pairwise distinct the plan
is independent of the enumeration order: any two enumerations of the same set
of (file, instant) pairs yield the identical plan. -/
theorem claim_c2_amended_order_independence (l1 l2 : List (FileRef × Int))
    (hp : l1.Perm l2) (hnd : (l1.map Prod.snd).Nodup) :
    calculate_renamings l1 = calculate_renamings l2 := by
  have hperm : (sort_by_time l1).Perm (sort_by_time l2) :=
    (sort_by_time_perm l1).trans (hp.trans (sort_by_time_perm l2).symm)
  have hnd1 : ((sort_by_time l1).map Prod.snd).Nodup :=
    (((sort_by_time_perm l1).map Prod.snd).nodup_iff).2 hnd
  have hs : sort_by_time l1 = sort_by_time l2 :=
    sorted_nodup_unique _ _ hperm
      (sort_by_time_sorted l1) (sort_by_time_sorted l2) hnd1
  simp [calculate_renamings, hs]

/-- Claim C2, witness for the amended statement: two opposite enumerations of
the same set of pairs with distinct instants produce the identical plan. -/
theorem claim_c2_amended_witness :
    calculate_renamings
        [(⟨"photos", "a", ".mp4"⟩, 0), (⟨"photos", "b", ".mp4"⟩, 1000000)]
      = calculate_renamings
        [(⟨"photos", "b", ".mp4"⟩, 1000000), (⟨"photos", "a", ".mp4"⟩, 0)] :=
  claim_c2_amended_order_independence _ _ (List.Perm.swap _ _ _) (by decide)

/-- Claim C3. A present but malformed embedded capture-time field is fatal:
the resolver propagates the parse error and does not fall back to filesystem
time; the fallback fires exactly when the field is absent. -/
theorem claim_c3_malformed_timestamp_fatal (osName : String) (fs : FsMeta) :
    (∀ tags : List (String × String), ∀ s : String,
        dict_get EXIF_DATE_TIME_ORIGINAL tags = some s →
        strptime_exif s = none →
        exif_time_else_creation_time osName tags fs = Except.error s)
    ∧ (∀ tags : List (String × String),
        dict_get EXIF_DATE_TIME_ORIGINAL tags = none →
        exif_time_else_creation_time osName tags fs
          = Except.ok (creation_time osName fs)) := by
  constructor
  · intro tags s hpresent hbad
    simp [exif_time_else_creation_time, exif_creation_time, hpresent, hbad]
  · intro tags habsent
    simp [exif_time_else_creation_time, exif_creation_time, habsent]

/-- Claim C3, witness: a malformed tag value propagates as an error; an
absent tag falls back to the filesystem time. -/
theorem claim_c3_witness :
    exif_time_else_creation_time "Linux"
        [("EXIF DateTimeOriginal", "not a date")] ⟨1, none, 2⟩
      = Except.error "not a date"
    ∧ exif_time_else_creation_time "Linux" [] ⟨1, none, 2⟩ = Except.ok 2 :=
  ⟨(claim_c3_malformed_timestamp_fatal "Linux" ⟨1, none, 2⟩).1 _ _
      (by decide) (by decide),
   (claim_c3_malformed_timestamp_fatal "Linux" ⟨1, none, 2⟩).2 _ (by decide)⟩

/-- Claim C4, counterexample. The claim says a parse failure falls back to
the filesystem creation time; in the code a parse failure is a propagated
error instead (month 13 does not parse). -/
theorem claim_c4_counterexample :
    exif_time_else_creation_time "Linux"
        [("EXIF DateTimeOriginal", "2020:13:01 10:00:00")] ⟨1, none, 2⟩
      ≠ Except.ok (creation_time "Linux" ⟨1, none, 2⟩) := by
  have h1 : exif_time_else_creation_time "Linux"
        [("EXIF DateTimeOriginal", "2020:13:01 10:00:00")] ⟨1, none, 2⟩
      = Except.error "2020:13:01 10:00:00" := rfl
  intro hc
  rw [h1] at hc
  simp at hc

/-- Claim C4, amended. The filesystem fallback fires for image files with no
embedded metadata and for video files (which never consult metadata); on
platforms other than Windows the creation time is the birth time when the
field exists and the last-modified time otherwise, and on Windows it is
`getctime`.  A parse failure does not fall back (see C3). -/
theorem claim_c4_amended_fallback (osName : String)
    (tags : List (String × String)) (fs : FsMeta) :
    (dict_get EXIF_DATE_TIME_ORIGINAL tags = none →
        exif_time_else_creation_time osName tags fs
          = Except.ok (creation_time osName fs))
    ∧ (∀ file : String, is_video file = true → is_image file = false →
        resolve_media file osName tags fs = Except.ok (creation_time osName fs))
    ∧ (osName ≠ "Windows" → fs.birthtime = none →
        creation_time osName fs = fs.mtime)
    ∧ (∀ b : Int, osName ≠ "Windows" → fs.birthtime = some b →
        creation_time osName fs = b)
    ∧ (osName = "Windows" → creation_time osName fs = fs.ctime) := by
  refine ⟨?_, ?_, ?_, ?_, ?_⟩
  · intro habsent
    simp [exif_time_else_creation_time, exif_creation_time, habsent]
  · intro file _ himg
    simp [resolve_media, himg]
  · intro hos hb
    simp [creation_time, hos, hb]
  · intro b hos hb
    simp [creation_time, hos, hb]
  · intro hos
    simp [creation_time, hos]

/-- Claim C4, witness: a video file and a metadata-free image file both
resolve to the filesystem time; the birth-time and modified-time tiers of
`creation_time` and the Windows tier are all exercised. -/
theorem claim_c4_witness :
    exif_time_else_creation_time "Linux" [] ⟨7, none, 5⟩ = Except.ok 5
    ∧ resolve_media "clip.mp4" "Linux" [] ⟨7, none, 5⟩ = Except.ok 5
    ∧ creation_time "Linux" (⟨7, none, 5⟩ : FsMeta) = 5
    ∧ creation_time "Linux" (⟨7, some 9, 5⟩ : FsMeta) = 9
    ∧ creation_time "Windows" (⟨7, none, 5⟩ : FsMeta) = 7 :=
  ⟨(claim_c4_amended_fallback "Linux" [] ⟨7, none, 5⟩).1 (by decide),
   (claim_c4_amended_fallback "Linux" [] ⟨7, none, 5⟩).2.1 "clip.mp4"
      (by decide) (by decide),
   (claim_c4_amended_fallback "Linux" [] ⟨7, none, 5⟩).2.2.1
      (by decide) (by decide),
   (claim_c4_amended_fallback "Linux" [] ⟨7, some 9, 5⟩).2.2.2.1 9
      (by decide) (by decide),
   (claim_c4_amended_fallback "Windows" [] ⟨7, none, 5⟩).2.2.2.2 (by decide)⟩

/-- Claim C8. Fallback precedence: when the embedded capture-time field is
present and parseable, the resolver returns exactly the parsed embedded
value, for every filesystem metadata and platform. -/
theorem claim_c8_fallback_precedence (tags : List (String × String))
    (s : String) (t : Int)
    (hpresent : dict_get EXIF_DATE_TIME_ORIGINAL tags = some s)
    (hparse : strptime_exif s = some t) :
    ∀ osName : String, ∀ fs : FsMeta,
      exif_time_else_creation_time osName tags fs = Except.ok t := by
  intro osName fs
  simp [exif_time_else_creation_time, exif_creation_time, hpresent, hparse]

/-- Claim C8, witness: a valid embedded instant (2020-01-01 10:00:00) wins
over a differing filesystem time. -/
theorem claim_c8_witness :
    exif_time_else_creation_time "Linux"
        [("EXIF DateTimeOriginal", "2020:01:01 10:00:00")] ⟨1, none, 999⟩
      = Except.ok 1577872800000000 :=
  claim_c8_fallback_precedence _ "2020:01:01 10:00:00" 1577872800000000
    (by decide) (by decide) "Linux" ⟨1, none, 999⟩


/-- Claim C5. Forward-only displacement: every entry of the renamings pass
comes from an input pair, its flag is set iff the assigned instant differs
from the original, the assigned instant is never earlier than the original,
and when the flag is set the assigned instant is strictly later. -/
theorem claim_c5_forward_displacement (m : List (FileRef × Int)) :
    ∀ e ∈ apply_strategy [] (sort_by_time m),
      ∃ p, p ∈ m ∧ e.2.1 = p.1 ∧ (e.2.2 = true ↔ e.1 ≠ p.2) ∧ p.2 ≤ e.1
        ∧ (e.2.2 = true → p.2 < e.1) := by
  intro e he
  rw [apply_strategy_eq, List.nil_append] at he
  rcases plan_times_mem (sort_by_time m) [] e he with ⟨p, hpmem, h1, h2, h3⟩
  refine ⟨p, ((sort_by_time_perm m).mem_iff).1 hpmem, h1, ?_, h3, ?_⟩
  · rw [h2]
    simp
  · intro hflag
    rw [h2] at hflag
    have hne : e.1 ≠ p.2 := by simpa using hflag
    exact lt_of_le_of_ne h3 (Ne.symm hne)

/-- Claim C5, witness: with two files sharing instant 0, the displaced entry
(assigned instant one second later, flag set) satisfies the theorem. -/
theorem claim_c5_witness :
    ∃ p, p ∈ [((⟨"photos", "a", ".mp4"⟩ : FileRef), (0 : Int)),
              (⟨"photos", "b", ".mp4"⟩, 0)]
      ∧ (⟨"photos", "b", ".mp4"⟩ : FileRef) = p.1
      ∧ (true = true ↔ (1000000 : Int) ≠ p.2)
      ∧ p.2 ≤ 1000000
      ∧ (true = true → p.2 < 1000000) :=
  claim_c5_forward_displacement
    [(⟨"photos", "a", ".mp4"⟩, 0), (⟨"photos", "b", ".mp4"⟩, 0)]
    (1000000, ⟨"photos", "b", ".mp4"⟩, true) (by decide)

/-- Claim C6. No-collision passthrough: when all capture instants are
pairwise distinct, every file is mapped to the direct formatting of its own
original instant with its extension, and its collision flag is false. -/
theorem claim_c6_no_collision_passthrough (m : List (FileRef × Int))
    (hk : (m.map Prod.fst).Nodup) (ht : (m.map Prod.snd).Nodup) :
    ∀ p ∈ m,
      List.lookup p.1 (calculate_renamings m)
        = some (renamed_file_name p.1 p.2, false) := by
  intro p hp
  have hperm := sort_by_time_perm m
  have hts : ((sort_by_time m).map Prod.snd).Nodup :=
    ((hperm.map Prod.snd).nodup_iff).2 ht
  have hks : ((sort_by_time m).map Prod.fst).Nodup :=
    ((hperm.map Prod.fst).nodup_iff).2 hk
  have hplan : plan_times [] (sort_by_time m)
      = (sort_by_time m).map (fun q => (q.2, q.1, false)) :=
    plan_times_nocollision _ [] (by simpa using hts)
  have happ : apply_strategy [] (sort_by_time m)
      = plan_times [] (sort_by_time m) := by
    rw [apply_strategy_eq]
    simp
  have hfiles : ((plan_times [] (sort_by_time m)).map (fun e => e.2.1)).Nodup := by
    rw [plan_times_files]
    exact hks
  have hresult : calculate_renamings m
      = (sort_by_time m).map (fun q => (q.1, renamed_file_name q.1 q.2, false)) := by
    rw [calculate_renamings, happ, build_result_eq _ hfiles, hplan, List.map_map]
    rfl
  rw [hresult]
  have hpm : p ∈ sort_by_time m := (hperm.mem_iff).2 hp
  have hmem : (p.1, renamed_file_name p.1 p.2, false)
      ∈ (sort_by_time m).map (fun q => (q.1, renamed_file_name q.1 q.2, false)) :=
    List.mem_map.2 ⟨p, hpm, rfl⟩
  have hnodupkeys : (((sort_by_time m).map
      (fun q => (q.1, renamed_file_name q.1 q.2, false))).map Prod.fst).Nodup := by
    rw [List.map_map]
    simpa using hks
  exact lookup_of_mem_nodup _ (p.1, (renamed_file_name p.1 p.2, false))
    hnodupkeys hmem

/-- Claim C6, witness: with two distinct instants, each file keeps its own
formatted instant and an unset flag. -/
theorem claim_c6_witness :
    List.lookup (⟨"photos", "a", ".mp4"⟩ : FileRef)
        (calculate_renamings
          [(⟨"photos", "a", ".mp4"⟩, 0), (⟨"photos", "b", ".mp4"⟩, 1000000)])
      = some (renamed_file_name ⟨"photos", "a", ".mp4"⟩ 0, false) :=
  claim_c6_no_collision_passthrough
    [(⟨"photos", "a", ".mp4"⟩, 0), (⟨"photos", "b", ".mp4"⟩, 1000000)]
    (by decide) (by decide) (⟨"photos", "a", ".mp4"⟩, 0) (by decide)

/-- Claim C7, counterexample. Four files: two at instant 0, two sharing
instant 1000000 (one second later).  The second file at 0 is displaced onto
1000000, so the cluster sharing 1000000 is assigned 2000000 and 3000000 —
consecutive seconds, but not starting at the shared instant as the claim
states. -/
theorem claim_c7_counterexample :
    ((sort_by_time
        [(⟨"photos", "a", ".jpg"⟩, 0), (⟨"photos", "b", ".jpg"⟩, 0),
         (⟨"photos", "c", ".jpg"⟩, 1000000), (⟨"photos", "d", ".jpg"⟩, 1000000)]).map
        Prod.snd = [0, 0, 1000000, 1000000])
    ∧ ((apply_strategy []
          (sort_by_time
            [(⟨"photos", "a", ".jpg"⟩, 0), (⟨"photos", "b", ".jpg"⟩, 0),
             (⟨"photos", "c", ".jpg"⟩, 1000000),
             (⟨"photos", "d", ".jpg"⟩, 1000000)])).map (fun e => e.1)
        = [0, 1000000, 2000000, 3000000])
    ∧ (((apply_strategy []
          (sort_by_time
            [(⟨"photos", "a", ".jpg"⟩, 0), (⟨"photos", "b", ".jpg"⟩, 0),
             (⟨"photos", "c", ".jpg"⟩, 1000000),
             (⟨"photos", "d", ".jpg"⟩, 1000000)])).map (fun e => e.1)).drop 2
        ≠ [1000000, 2000000]) := by
  refine ⟨by decide, by decide, by decide⟩

/-- Claim C7, amended. Decompose the sorted input as `pre ++ mid ++ post`
where every `mid` entry carries the shared instant `t`.  Then the renamings
pass processes the three segments in order; the `mid` files receive
consecutive one-second-apart instants, in the sorted/tie-broken processing
order, starting at the first candidate in the one-second lattice above `t`
that is unassigned when the cluster is reached — which is `t` itself exactly
when no earlier-processed file occupies that lattice.  Their flags record
whether the received instant differs from `t`. -/
theorem claim_c7_amended_cluster (m : List (FileRef × Int)) (t : Int)
    (pre mid post : List (FileRef × Int))
    (hd : sort_by_time m = pre ++ mid ++ post)
    (hm : ∀ p ∈ mid, p.2 = t) :
    (apply_strategy [] (sort_by_time m)
        = apply_strategy [] pre ++ plan_times (apply_strategy [] pre) mid
          ++ plan_times (apply_strategy [] (pre ++ mid)) post)
    ∧ ((plan_times (apply_strategy [] pre) mid).map (fun e => e.1)
        = (List.range mid.length).map
            (fun k : Nat =>
              resolve_time (apply_strategy [] pre) t + (k : Int) * oneSecond))
    ∧ ((plan_times (apply_strategy [] pre) mid).map (fun e => e.2.1)
        = mid.map Prod.fst)
    ∧ (∀ e ∈ plan_times (apply_strategy [] pre) mid, e.2.2 = decide (e.1 ≠ t))
    ∧ ((∀ e ∈ apply_strategy [] pre, ∀ n : Nat,
          e.1 ≠ t + (n : Int) * oneSecond) →
        resolve_time (apply_strategy [] pre) t = t) := by
  have hA : ∀ l : List (FileRef × Int), apply_strategy [] l = plan_times [] l := by
    intro l
    rw [apply_strategy_eq]
    simp
  have hdec : apply_strategy [] (sort_by_time m)
      = apply_strategy [] pre ++ plan_times (apply_strategy [] pre) mid
        ++ plan_times (apply_strategy [] (pre ++ mid)) post := by
    rw [hA (sort_by_time m), hd]
    rw [plan_times_append]
    rw [plan_times_append]
    rw [hA pre, hA (pre ++ mid), plan_times_append pre mid []]
    simp [List.append_assoc]
  have hstart : (∀ e ∈ apply_strategy [] pre, ∀ n : Nat,
      e.1 ≠ t + (n : Int) * oneSecond) →
      resolve_time (apply_strategy [] pre) t = t := by
    intro hno
    have hfalse : timeAssigned (apply_strategy [] pre) t = false := by
      by_cases hb : timeAssigned (apply_strategy [] pre) t = true
      · exfalso
        rcases (timeAssigned_iff _ _).1 hb with ⟨e, he, heq⟩
        exact hno e he 0 (by simpa using heq)
      · exact Bool.eq_false_iff.2 hb
    rw [resolve_time_unfold]
    simp [hfalse]
  refine ⟨hdec, ?_, plan_times_files mid _, ?_, hstart⟩
  · rcases mid with _ | ⟨q, mq⟩
    · simp [plan_times]
    · have hq : q.2 = t := hm q (List.mem_cons_self _ _)
      have hsorted := sort_by_time_sorted m
      rw [hd] at hsorted
      have hbound : ∀ p2 ∈ pre, p2.2 ≤ t := by
        intro p2 hp2
        have hrel := (List.pairwise_append.1
            (List.pairwise_append.1 hsorted).1).2.2 p2 hp2 q
          (List.mem_cons_self _ _)
        exact hq ▸ hrel
      have hinv : chain_inv (apply_strategy [] pre) t :=
        chain_inv_apply pre [] t (chain_inv_nil t) hbound
      exact cluster_times (q :: mq) (apply_strategy [] pre) t hinv hm
  · intro e he
    rcases plan_times_mem mid _ e he with ⟨p, hpmem, _, h2, _⟩
    rw [hm p hpmem] at h2
    exact h2

/-- Claim C7, witness: three files sharing instant 0 with nothing processed
before them receive instants 0, 1 and 2 seconds, in processing order. -/
theorem claim_c7_witness :
    (plan_times (apply_strategy [] ([] : List (FileRef × Int)))
        [(⟨"photos", "a", ".jpg"⟩, 0), (⟨"photos", "b", ".jpg"⟩, 0),
         (⟨"photos", "c", ".jpg"⟩, 0)]).map (fun e => e.1)
      = (List.range 3).map (fun k : Nat =>
          resolve_time (apply_strategy [] ([] : List (FileRef × Int))) 0
            + (k : Int) * oneSecond) :=
  (claim_c7_amended_cluster
    [(⟨"photos", "a", ".jpg"⟩, 0), (⟨"photos", "b", ".jpg"⟩, 0),
     (⟨"photos", "c", ".jpg"⟩, 0)] 0 []
    [(⟨"photos", "a", ".jpg"⟩, 0), (⟨"photos", "b", ".jpg"⟩, 0),
     (⟨"photos", "c", ".jpg"⟩, 0)] []
    (by decide) (by decide)).2.1

/-- Claim C9, counterexample. Totality fails on the code: Python `datetime`
is bounded (year at most 9999) and `time += timedelta(seconds=1)` raises
`OverflowError` past `datetime.max`.  Two distinct files sharing the instant
9999-12-31 23:59:59 — a value reachable from an embedded EXIF field — make
the collision loop advance past `datetime.max`, so the planner with the
bounded `datetime` advance fails (returns no plan) for this finite input
mapping. -/
theorem claim_c9_counterexample :
    strptime_exif "9999:12:31 23:59:59" = some 253402300799000000
    ∧ calculate_renamings_checked
        [(⟨"photos", "a", ".jpg"⟩, 253402300799000000),
         (⟨"photos", "b", ".jpg"⟩, 253402300799000000)] = none
    ∧ ((⟨"photos", "a", ".jpg"⟩ : FileRef) ≠ ⟨"photos", "b", ".jpg"⟩) := by
  refine ⟨by decide, by decide, by decide⟩

/-- Claim C9, amended. The collision-advancing loop always reaches an
unassigned instant on the unbounded timeline; the empty input mapping yields
the empty plan (in the bounded and the unbounded model alike); the planner
with the bounded `datetime` advance succeeds — returning exactly the plan of
the unbounded model — for every finite input mapping whose capture instants
all lie at least one second per file below `datetime.max`; and a mapping
with distinct files (a dictionary) yields exactly one plan entry per
file. -/
theorem claim_c9_amended_totality :
    (∀ racc : List Entry, ∀ t : Int,
        timeAssigned racc (resolve_time racc t) = false)
    ∧ calculate_renamings_checked [] = some []
    ∧ calculate_renamings [] = []
    ∧ (∀ m : List (FileRef × Int),
        (∀ p ∈ m, p.2 + (m.length : Int) * oneSecond
          ≤ DATETIME_MAX_MICROSECONDS) →
        calculate_renamings_checked m = some (calculate_renamings m))
    ∧ (∀ m : List (FileRef × Int), (m.map Prod.fst).Nodup →
        (calculate_renamings m).length = m.length) := by
  refine ⟨resolve_time_free, rfl, rfl, ?_, ?_⟩
  · intro m hbound
    have hlen : (sort_by_time m).length = m.length :=
      (sort_by_time_perm m).length_eq
    have hagree := apply_strategy_checked_eq (sort_by_time m) [] m.length
      (by simp [hlen])
      (fun p hp => hbound p (((sort_by_time_perm m).mem_iff).1 hp))
    simp only [calculate_renamings_checked, calculate_renamings, hagree,
      Option.map_some]
    rfl
  · intro m hk
    have hperm := sort_by_time_perm m
    have hks : ((sort_by_time m).map Prod.fst).Nodup :=
      ((hperm.map Prod.fst).nodup_iff).2 hk
    have happ : apply_strategy [] (sort_by_time m)
        = plan_times [] (sort_by_time m) := by
      rw [apply_strategy_eq]
      simp
    have hfiles : ((plan_times [] (sort_by_time m)).map (fun e => e.2.1)).Nodup := by
      rw [plan_times_files]
      exact hks
    rw [calculate_renamings, happ, build_result_eq _ hfiles, List.length_map,
      plan_times_length]
    exact hperm.length_eq

/-- Claim C9, witness for the amended statement: on a two-file mapping far
below `datetime.max`, the bounded-advance planner succeeds with exactly the
unbounded model's plan, which has one entry per file. -/
theorem claim_c9_amended_witness :
    calculate_renamings_checked
        [((⟨"photos", "a", ".mp4"⟩ : FileRef), (0 : Int)),
         (⟨"photos", "b", ".mp4"⟩, 0)]
      = some (calculate_renamings
          [(⟨"photos", "a", ".mp4"⟩, 0), (⟨"photos", "b", ".mp4"⟩, 0)])
    ∧ (calculate_renamings
        [((⟨"photos", "a", ".mp4"⟩ : FileRef), (0 : Int)),
         (⟨"photos", "b", ".mp4"⟩, 0)]).length = 2 :=
  ⟨claim_c9_amended_totality.2.2.2.1
      [(⟨"photos", "a", ".mp4"⟩, 0), (⟨"photos", "b", ".mp4"⟩, 0)]
      (by decide),
   claim_c9_amended_totality.2.2.2.2
      [(⟨"photos", "a", ".mp4"⟩, 0), (⟨"photos", "b", ".mp4"⟩, 0)]
      (by decide)⟩

/-- Claim C10. Plan domain preservation: the files of the output plan are a
permutation of the keys of the input mapping — no file dropped, none
invented, one entry each. -/
theorem claim_c10_domain_preservation (m : List (FileRef × Int))
    (hk : (m.map Prod.fst).Nodup) :
    ((calculate_renamings m).map Prod.fst).Perm (m.map Prod.fst) := by
  have hperm := sort_by_time_perm m
  have hks : ((sort_by_time m).map Prod.fst).Nodup :=
    ((hperm.map Prod.fst).nodup_iff).2 hk
  have happ : apply_strategy [] (sort_by_time m)
      = plan_times [] (sort_by_time m) := by
    rw [apply_strategy_eq]
    simp
  have hfiles : ((plan_times [] (sort_by_time m)).map (fun e => e.2.1)).Nodup := by
    rw [plan_times_files]
    exact hks
  rw [calculate_renamings, happ, build_result_eq _ hfiles, List.map_map]
  have hcomp : ((plan_times [] (sort_by_time m)).map
      (Prod.fst ∘ fun e => (e.2.1, renamed_file_name e.2.1 e.1, e.2.2)))
      = (plan_times [] (sort_by_time m)).map (fun e => e.2.1) := rfl
  rw [hcomp, plan_times_files]
  exact hperm.map Prod.fst

/-- Claim C10, witness: the two input files appear exactly once each in the
output plan. -/
theorem claim_c10_witness :
    ((calculate_renamings
        [((⟨"photos", "a", ".mp4"⟩ : FileRef), (0 : Int)),
         (⟨"photos", "b", ".mp4"⟩, 0)]).map Prod.fst).Perm
      [⟨"photos", "a", ".mp4"⟩, ⟨"photos", "b", ".mp4"⟩] :=
  claim_c10_domain_preservation
    [(⟨"photos", "a", ".mp4"⟩, 0), (⟨"photos", "b", ".mp4"⟩, 0)] (by decide)

end ExifRenamer
